import Mathlib

/-!
Verification of the sanitizer and orchestration layer of the
gemini-pdf-table-extractor program (src/main.py).

The sanitizer `clean_html_output` is a chain of five `re.sub` calls:

  text = re.sub(r'^```html\s*', '', text)
  text = re.sub(r'^```\s*', '', text)
  text = re.sub(r'\s*```$', '', text)
  text = re.sub(r'<html>\s*```html', '<html>', text, flags=re.IGNORECASE)
  text = re.sub(r'```\s*</html>', '</html>', text, flags=re.IGNORECASE)

Each call is embedded below as a function `sub1` .. `sub5` on `List Char`,
following Python `re` semantics (no MULTILINE: `^` anchors only at the very
start; `$` matches at the end of the string or just before a terminal
newline; substitution replaces every non-overlapping leftmost match; the
two IGNORECASE patterns compare characters case-insensitively but all five
replacement strings are the literal ones written in the source).

The orchestration function `process_pdf_with_gemini` validates its path
argument (existence, then `Path(p).suffix.lower() == ".pdf"`) before the
single service call; the external generation service, the file reads and
writes, and the response wrapper are abstracted: the service is a parameter
and the result records how many times it was invoked.
-/

/-- The backtick character (0x60), the building block of a fence marker. -/
def btick : Char := Char.ofNat 96

/-- A fence marker: three consecutive backticks. -/
def fence : List Char := "```".data

/-- Python `\s` for `str` patterns: ASCII whitespace (space, \t, \n, \r,
\v, \f), the C1 separators, NEL, NBSP and the Unicode space characters. -/
def pySpace (c : Char) : Bool :=
  decide (c = ' ') || decide (c = '\t') || decide (c = '\n') || decide (c = '\r') ||
  decide (c.toNat = 11) || decide (c.toNat = 12) ||
  decide (c.toNat = 28) || decide (c.toNat = 29) ||
  decide (c.toNat = 30) || decide (c.toNat = 31) ||
  decide (c.toNat = 133) || decide (c.toNat = 160) || decide (c.toNat = 5760) ||
  (decide (8192 ≤ c.toNat) && decide (c.toNat ≤ 8202)) ||
  decide (c.toNat = 8232) || decide (c.toNat = 8233) ||
  decide (c.toNat = 8239) || decide (c.toNat = 8287) || decide (c.toNat = 12288)

/-- Case-insensitive character comparison, as used by `re.IGNORECASE`
(ASCII case folding via `Char.toLower`). -/
def ciEq (a b : Char) : Bool := decide (a.toLower = b.toLower)

/-- Match a literal pattern at the head of the text (case-sensitively),
returning the rest of the text on success. -/
def dropExact : List Char → List Char → Option (List Char)
  | [], l => some l
  | _ :: _, [] => none
  | p :: ps, c :: cs => if p = c then dropExact ps cs else none

/-- Match a literal pattern at the head of the text case-insensitively,
returning the rest of the text on success. -/
def dropCI : List Char → List Char → Option (List Char)
  | [], l => some l
  | _ :: _, [] => none
  | p :: ps, c :: cs => if ciEq p c then dropCI ps cs else none

/-- line 48: `re.sub(r'^```html\s*', '', text)` — anchored at the start, so
at most one substitution: strip a leading `\x60\x60\x60html` and the (greedy,
maximal) run of whitespace after it. -/
def sub1 (l : List Char) : List Char :=
  match dropExact "```html".data l with
  | some r => r.dropWhile pySpace
  | none => l

/-- line 49: `re.sub(r'^```\s*', '', text)` — strip a leading bare fence
marker and the whitespace run after it. -/
def sub2 (l : List Char) : List Char :=
  match dropExact "```".data l with
  | some r => r.dropWhile pySpace
  | none => l

/-- line 50: `re.sub(r'\s*```$', '', text)`.  Without MULTILINE, `$`
matches at the very end or just before a terminal newline, so the (unique,
leftmost) match removes a terminal fence marker together with the maximal
whitespace run before it, keeping a terminal newline if one follows the
marker.  Both cases are recognised on the reversed text. -/
def sub3 (l : List Char) : List Char :=
  match dropExact "```".data l.reverse with
  | some r => (r.dropWhile pySpace).reverse
  | none =>
    match dropExact "\n```".data l.reverse with
    | some r => (r.dropWhile pySpace).reverse ++ ['\n']
    | none => l

/-- One attempt of the pattern `<html>\s*```html` (IGNORECASE) at the head
of the text: `<html>`, then the whitespace run, then the tagged fence;
returns the text after the match. -/
def matchHtmlOpen (l : List Char) : Option (List Char) :=
  match dropCI "<html>".data l with
  | some r => dropCI "```html".data (r.dropWhile pySpace)
  | none => none

/-- One attempt of the pattern `` ``` ``\s*`</html>` (IGNORECASE) at the
head of the text. -/
def matchFenceClose (l : List Char) : Option (List Char) :=
  match dropCI "```".data l with
  | some r => dropCI "</html>".data (r.dropWhile pySpace)
  | none => none

/-- line 53: `re.sub(r'<html>\s*```html', '<html>', text, flags=re.IGNORECASE)`.
Global left-to-right scan replacing each non-overlapping match with the
literal `<html>`.  Fueled recursion (the fuel is an upper bound on the
number of characters still to be scanned; every step consumes at least
one input character, so `sub4` supplies `l.length`). -/
def sub4F : Nat → List Char → List Char
  | 0, l => l
  | _ + 1, [] => []
  | fuel + 1, c :: rest =>
    match matchHtmlOpen (c :: rest) with
    | some r => "<html>".data ++ sub4F fuel r
    | none => c :: sub4F fuel rest

def sub4 (l : List Char) : List Char := sub4F l.length l

/-- line 54: `re.sub(r'```\s*</html>', '</html>', text, flags=re.IGNORECASE)`. -/
def sub5F : Nat → List Char → List Char
  | 0, l => l
  | _ + 1, [] => []
  | fuel + 1, c :: rest =>
    match matchFenceClose (c :: rest) with
    | some r => "</html>".data ++ sub5F fuel r
    | none => c :: sub5F fuel rest

def sub5 (l : List Char) : List Char := sub5F l.length l

/-- The five substitutions of `clean_html_output`, in source order. -/
def cleanList (l : List Char) : List Char := sub5 (sub4 (sub3 (sub2 (sub1 l))))

/-- src/main.py lines 37-56: `clean_html_output(text)`. -/
def clean_html_output (text : String) : String := String.mk (cleanList text.data)

/-! ## Orchestration (src/main.py lines 58-171) -/

/-- The last path component, as `pathlib` computes it on POSIX (trailing
separators are ignored). -/
def pathName (p : String) : List Char :=
  ((p.data.reverse.dropWhile (fun c => decide (c = '/'))).takeWhile
    (fun c => !(decide (c = '/')))).reverse

/-- `pathlib.PurePath.suffix`: the part of the name from its last dot to
the end, provided that dot is neither the first nor the last character of
the name; otherwise the empty string. -/
def pathSuffix (p : String) : String :=
  let n := pathName p
  let revA := n.reverse.takeWhile (fun c => !(decide (c = '.')))
  if 0 < revA.length ∧ revA.length + 1 < n.length then
    String.mk ('.' :: revA.reverse)
  else ""

/-- `str.lower()` (ASCII case mapping, which covers file extensions). -/
def lowerString (s : String) : String := String.mk (s.data.map Char.toLower)

/-- The two input-error kinds raised by `process_pdf_with_gemini`:
`FileNotFoundError` (line 74) and `ValueError` (line 79). -/
inductive PdfError where
  | fileNotFound (msg : String)
  | valueError (msg : String)
deriving DecidableEq

/-- src/main.py lines 58-171: `process_pdf_with_gemini(pdf_path, ...)`.
The filesystem is abstracted as the existence predicate `fsExists`
(`os.path.exists`), and the remote model as `service`
(`client.models.generate_content(...).text`); the second component of the
result counts how many times the service was invoked.  Request assembly,
file IO and the response wrapper carry no logic relevant to validation
ordering and are not modelled. -/
def process_pdf_with_gemini (fsExists : String → Bool) (service : Unit → String)
    (pdf_path : String) : Except PdfError String × Nat :=
  if fsExists pdf_path = false then
    (Except.error (PdfError.fileNotFound ("PDF file not found: " ++ pdf_path)), 0)
  else
    let file_extension := lowerString (pathSuffix pdf_path)
    if file_extension ≠ ".pdf" then
      (Except.error (PdfError.valueError ("Expected a PDF file, got " ++ file_extension)), 0)
    else
      (Except.ok (clean_html_output (service ())), 1)

/-! ## Observables used by the claims -/

/-- Number of (possibly overlapping) occurrences of a fence marker. -/
def occFence : List Char → Nat
  | a :: b :: c :: rest =>
    (if a = btick ∧ b = btick ∧ c = btick then 1 else 0) + occFence (b :: c :: rest)
  | _ => 0

/-- Does the text contain a fence marker anywhere? -/
def hasFence : List Char → Bool
  | a :: b :: c :: rest =>
    (decide (a = btick) && decide (b = btick) && decide (c = btick)) || hasFence (b :: c :: rest)
  | _ => false

/-- Does the text begin with a fence marker? -/
def beginsFence (l : List Char) : Bool := (dropExact fence l).isSome

/-- Does the text end with a fence marker? -/
def endsFence (l : List Char) : Bool := (dropExact fence l.reverse).isSome

/-- Does the text contain a case-insensitive occurrence of `pat`? -/
def containsCI (pat : List Char) : List Char → Bool
  | [] => (dropCI pat []).isSome
  | c :: rest => (dropCI pat (c :: rest)).isSome || containsCI pat rest

/-- Does the pattern of line 53 match anywhere in the text? -/
def hasOpen : List Char → Bool
  | [] => false
  | c :: rest => (matchHtmlOpen (c :: rest)).isSome || hasOpen rest

/-- Does the pattern of line 54 match anywhere in the text? -/
def hasClose : List Char → Bool
  | [] => false
  | c :: rest => (matchFenceClose (c :: rest)).isSome || hasClose rest

/-! ## Basic lemmas about the matching helpers -/

theorem dropExact_sound (p : List Char) : ∀ l r, dropExact p l = some r → l = p ++ r := by
  induction p with
  | nil =>
    intro l r h
    simp only [dropExact, Option.some.injEq] at h
    simp [h]
  | cons a ps ih =>
    intro l r h
    cases l with
    | nil => simp [dropExact] at h
    | cons c cs =>
      simp only [dropExact] at h
      split at h
      · rename_i hac
        have := ih cs r h
        simp [hac, this]
      · exact absurd h (by simp)

theorem dropExact_self (p r : List Char) : dropExact p (p ++ r) = some r := by
  induction p with
  | nil => rfl
  | cons a ps ih => simp [dropExact, ih]

theorem dropCI_split (p : List Char) : ∀ l r, dropCI p l = some r → ∃ t, l = t ++ r ∧ t.length = p.length := by
  induction p with
  | nil =>
    intro l r h
    simp only [dropCI, Option.some.injEq] at h
    exact ⟨[], by simp [h], by simp⟩
  | cons a ps ih =>
    intro l r h
    cases l with
    | nil => simp [dropCI] at h
    | cons c cs =>
      simp only [dropCI] at h
      split at h
      · obtain ⟨t, ht, hlen⟩ := ih cs r h
        exact ⟨c :: t, by simp [ht], by simp [hlen]⟩
      · exact absurd h (by simp)

theorem dropCI_cons (a : Char) (ps l r : List Char) (h : dropCI (a :: ps) l = some r) :
    ∃ c cs, l = c :: cs ∧ ciEq a c = true ∧ dropCI ps cs = some r := by
  cases l with
  | nil => simp [dropCI] at h
  | cons c cs =>
    simp only [dropCI] at h
    split at h
    · rename_i hci
      exact ⟨c, cs, rfl, hci, h⟩
    · exact absurd h (by simp)

theorem char_toNat_ofNat (n : Nat) (h : n < 55296) : (Char.ofNat n).toNat = n := by
  unfold Char.ofNat
  rw [dif_pos (Or.inl h)]
  rfl

theorem toLower_btick {c : Char} (h : c.toLower = btick) : c = btick := by
  have h' : (if c.toNat ≥ 65 ∧ c.toNat ≤ 90 then Char.ofNat (c.toNat + 32) else c) = btick := h
  by_cases hc : c.toNat ≥ 65 ∧ c.toNat ≤ 90
  · rw [if_pos hc] at h'
    exfalso
    have h96 : (Char.ofNat (c.toNat + 32)).toNat = c.toNat + 32 :=
      char_toNat_ofNat _ (by omega)
    rw [h'] at h96
    have hb : btick.toNat = 96 := by decide
    omega
  · rwa [if_neg hc] at h'

theorem ciEq_btick {c : Char} (h : ciEq btick c = true) : c = btick := by
  have h' : btick.toLower = c.toLower := by simpa [ciEq] using h
  have hb : btick.toLower = btick := by decide
  exact toLower_btick (h'.symm.trans hb)

theorem fence_eq : fence = [btick, btick, btick] := by decide

theorem dropCI_fence_split (ps l r : List Char)
    (h : dropCI (btick :: btick :: btick :: ps) l = some r) : ∃ t, l = fence ++ t := by
  obtain ⟨c1, l1, rfl, hc1, h1⟩ := dropCI_cons _ _ _ _ h
  obtain ⟨c2, l2, rfl, hc2, h2⟩ := dropCI_cons _ _ _ _ h1
  obtain ⟨c3, l3, rfl, hc3, _⟩ := dropCI_cons _ _ _ _ h2
  rw [ciEq_btick hc1, ciEq_btick hc2, ciEq_btick hc3, fence_eq]
  exact ⟨l3, rfl⟩

/-! ## Fence-occurrence lemmas -/

theorem hasFence_cons (a : Char) (l : List Char) (h : hasFence l = true) :
    hasFence (a :: l) = true := by
  cases l with
  | nil => simp [hasFence] at h
  | cons b t =>
    cases t with
    | nil => simp [hasFence] at h
    | cons c r => simp [hasFence, h]

theorem hasFence_append (p l : List Char) (h : hasFence l = true) :
    hasFence (p ++ l) = true := by
  induction p with
  | nil => simpa
  | cons a t ih => exact hasFence_cons a _ ih

theorem hasFence_fence_append (q : List Char) : hasFence (fence ++ q) = true := by
  rw [fence_eq]
  simp [hasFence]

theorem hasFence_decomp (p q : List Char) : hasFence (p ++ (fence ++ q)) = true :=
  hasFence_append p _ (hasFence_fence_append q)

/-! ## The substitutions are inert on fence-free text -/

theorem sub1_id {l : List Char} (h : hasFence l = false) : sub1 l = l := by
  unfold sub1
  cases hd : dropExact "```html".data l with
  | none => rfl
  | some r =>
    exfalso
    have hl := dropExact_sound _ _ _ hd
    have hl' : l = fence ++ ("html".data ++ r) := by
      rw [hl, show "```html".data = fence ++ "html".data from by decide, List.append_assoc]
    rw [hl', hasFence_fence_append] at h
    exact absurd h (by simp)

theorem sub2_id {l : List Char} (h : hasFence l = false) : sub2 l = l := by
  unfold sub2
  cases hd : dropExact "```".data l with
  | none => rfl
  | some r =>
    exfalso
    have hl := dropExact_sound _ _ _ hd
    rw [show ("```".data : List Char) = fence from rfl] at hl
    rw [hl, hasFence_fence_append] at h
    exact absurd h (by simp)

theorem rev_fence : (List.reverse "```".data : List Char) = fence := by decide

theorem sub3_id {l : List Char} (h : hasFence l = false) : sub3 l = l := by
  unfold sub3
  cases hd : dropExact "```".data l.reverse with
  | some r =>
    exfalso
    have hl := dropExact_sound _ _ _ hd
    have hrev := congrArg List.reverse hl
    rw [List.reverse_reverse, List.reverse_append, rev_fence] at hrev
    rw [hrev] at h
    have : hasFence (r.reverse ++ (fence ++ [])) = true := hasFence_decomp _ _
    rw [List.append_nil] at this
    rw [this] at h
    exact absurd h (by simp)
  | none =>
    cases hd2 : dropExact "\n```".data l.reverse with
    | some r =>
      exfalso
      have hl := dropExact_sound _ _ _ hd2
      have hrev := congrArg List.reverse hl
      rw [List.reverse_reverse, List.reverse_append,
        show (List.reverse "\n```".data : List Char) = fence ++ ['\n'] from by decide] at hrev
      rw [hrev] at h
      rw [← List.append_assoc] at h
      rw [List.append_assoc, hasFence_decomp] at h
      exact absurd h (by simp)
    | none => rfl

theorem matchHtmlOpen_hasFence {l r : List Char} (h : matchHtmlOpen l = some r) :
    hasFence l = true := by
  unfold matchHtmlOpen at h
  cases h1 : dropCI "<html>".data l with
  | none => rw [h1] at h; exact absurd h (by simp)
  | some r1 =>
    rw [h1] at h
    rw [show "```html".data = btick :: btick :: btick :: "html".data from by decide] at h
    obtain ⟨t, ht⟩ := dropCI_fence_split _ _ _ h
    obtain ⟨t1, hl1, _⟩ := dropCI_split _ _ _ h1
    have hr1 : hasFence r1 = true := by
      have hsplit : r1.takeWhile pySpace ++ r1.dropWhile pySpace = r1 :=
        List.takeWhile_append_dropWhile pySpace r1
    
      rw [← hsplit, ht]
      exact hasFence_decomp _ t
    rw [hl1]
    exact hasFence_append _ _ hr1

theorem matchFenceClose_hasFence {l r : List Char} (h : matchFenceClose l = some r) :
    hasFence l = true := by
  unfold matchFenceClose at h
  cases h1 : dropCI "```".data l with
  | none => rw [h1] at h; exact absurd h (by simp)
  | some r1 =>
    rw [show ("```".data : List Char) = btick :: btick :: btick :: [] from by decide] at h1
    obtain ⟨t, ht⟩ := dropCI_fence_split _ _ _ h1
    rw [ht]
    exact hasFence_fence_append t

theorem hasOpen_hasFence : ∀ l, hasOpen l = true → hasFence l = true := by
  intro l
  induction l with
  | nil => intro h; simp [hasOpen] at h
  | cons c rest ih =>
    intro h
    simp only [hasOpen, Bool.or_eq_true] at h
    rcases h with h | h
    · obtain ⟨r, hr⟩ := Option.isSome_iff_exists.mp h
      exact matchHtmlOpen_hasFence hr
    · exact hasFence_cons c _ (ih h)

theorem hasClose_hasFence : ∀ l, hasClose l = true → hasFence l = true := by
  intro l
  induction l with
  | nil => intro h; simp [hasClose] at h
  | cons c rest ih =>
    intro h
    simp only [hasClose, Bool.or_eq_true] at h
    rcases h with h | h
    · obtain ⟨r, hr⟩ := Option.isSome_iff_exists.mp h
      exact matchFenceClose_hasFence hr
    · exact hasFence_cons c _ (ih h)

theorem sub4F_id : ∀ (fuel : Nat) (l : List Char), hasOpen l = false → sub4F fuel l = l := by
  intro fuel
  induction fuel with
  | zero => intro l _; rfl
  | succ n ih =>
    intro l h
    cases l with
    | nil => rfl
    | cons c rest =>
      simp only [hasOpen, Bool.or_eq_false_iff] at h
      have hm : matchHtmlOpen (c :: rest) = none := by
        cases hmm : matchHtmlOpen (c :: rest) with
        | none => rfl
        | some r => rw [hmm] at h; exact absurd h.1 (by simp)
      simp only [sub4F, hm]
      rw [ih rest h.2]

theorem sub5F_id : ∀ (fuel : Nat) (l : List Char), hasClose l = false → sub5F fuel l = l := by
  intro fuel
  induction fuel with
  | zero => intro l _; rfl
  | succ n ih =>
    intro l h
    cases l with
    | nil => rfl
    | cons c rest =>
      simp only [hasClose, Bool.or_eq_false_iff] at h
      have hm : matchFenceClose (c :: rest) = none := by
        cases hmm : matchFenceClose (c :: rest) with
        | none => rfl
        | some r => rw [hmm] at h; exact absurd h.1 (by simp)
      simp only [sub5F, hm]
      rw [ih rest h.2]

theorem hasOpen_false_of_hasFence {l : List Char} (h : hasFence l = false) :
    hasOpen l = false := by
  cases hho : hasOpen l with
  | false => rfl
  | true => exact absurd (hasOpen_hasFence l hho) (by simp [h])

theorem hasClose_false_of_hasFence {l : List Char} (h : hasFence l = false) :
    hasClose l = false := by
  cases hhc : hasClose l with
  | false => rfl
  | true => exact absurd (hasClose_hasFence l hhc) (by simp [h])

theorem clean_id {l : List Char} (h : hasFence l = false) : cleanList l = l := by
  unfold cleanList sub4 sub5
  rw [sub1_id h, sub2_id h, sub3_id h,
    sub4F_id _ _ (hasOpen_false_of_hasFence h),
    sub5F_id _ _ (hasClose_false_of_hasFence h)]

/-! ## Claim theorems: sanitizer concrete behaviour and identity claims -/

/-- C4 counterexample: on the input with a tagged opening fence and a
closing fence at the very end, the code does NOT return "<p>x</p>\n": the
`\s*` of `re.sub(r'\s*```$', '', text)` also consumes the newline that
precedes the closing marker. -/
theorem c4_counterexample : clean_html_output "```html\n<p>x</p>\n```" ≠ "<p>x</p>\n" := by
  decide

/-- C4 (amended): `clean_html_output "```html\n<p>x</p>\n```"` returns
exactly "<p>x</p>": the leading marker with its following whitespace and
the trailing marker with all of its preceding whitespace (including the
final newline of the body) are removed. -/
theorem c4_amended_strip : clean_html_output "```html\n<p>x</p>\n```" = "<p>x</p>" := by
  decide

/-- C5: the sanitizer is the identity on every string containing no fence
marker; being a total Lean function it is defined on all strings, and the
empty string is covered by the witness. -/
theorem c5_identity_on_fence_free (s : String) (h : hasFence s.data = false) :
    clean_html_output s = s := by
  unfold clean_html_output
  rw [clean_id h]

/-- Witness for C5 at the empty string. -/
theorem c5_witness : hasFence ("" : String).data = false ∧ clean_html_output "" = "" :=
  ⟨by decide, c5_identity_on_fence_free "" (by decide)⟩

/-- C2 counterexample: the sanitizer is not idempotent.  On "y``` ```"
one application yields "y```" (the trailing marker plus the whitespace
before it are stripped, surfacing the inner marker at the end), and a
second application strips again. -/
theorem c2_counterexample :
    clean_html_output (clean_html_output "y``` ```") ≠ clean_html_output "y``` ```" := by
  decide

/-- C2 (amended): the sanitizer is idempotent on every input whose
sanitized output contains no fence marker (in particular on all fence-free
inputs); when a marker survives in the output, a second application can
strip further. -/
theorem c2_idempotent_when_output_fence_free (s : String)
    (h : hasFence (clean_html_output s).data = false) :
    clean_html_output (clean_html_output s) = clean_html_output s := by
  have h' : hasFence (cleanList s.data) = false := h
  show String.mk (cleanList (cleanList s.data)) = String.mk (cleanList s.data)
  rw [clean_id h']

/-- Witness for C2 (amended). -/
theorem c2_witness :
    hasFence (clean_html_output "```html\n<table>\n```").data = false ∧
    clean_html_output (clean_html_output "```html\n<table>\n```") =
      clean_html_output "```html\n<table>\n```" :=
  ⟨by decide, c2_idempotent_when_output_fence_free "```html\n<table>\n```" (by decide)⟩

/-- C6: the structural-tag/fence pairs are collapsed exactly as the spec
example states. -/
theorem c6_structural_collapse :
    clean_html_output "<html>\n```html\n<body>ok</body>\n```\n</html>" =
      "<html>\n<body>ok</body>\n</html>" := by
  decide

/-! ## Claim theorems: orchestration validation -/

/-- C7: for every filesystem, service and path, if the path does not
exist, `process_pdf_with_gemini` raises the missing-file input error and
the service call count is zero. -/
theorem c7_missing_file_no_call (fsExists : String → Bool) (service : Unit → String)
    (p : String) (h : fsExists p = false) :
    process_pdf_with_gemini fsExists service p =
      (Except.error (PdfError.fileNotFound ("PDF file not found: " ++ p)), 0) := by
  simp [process_pdf_with_gemini, h]

/-- Witness for C7. -/
theorem c7_witness :
    (fun (_ : String) => false) "missing.pdf" = false ∧
    process_pdf_with_gemini (fun _ => false) (fun _ => "") "missing.pdf" =
      (Except.error (PdfError.fileNotFound "PDF file not found: missing.pdf"), 0) :=
  ⟨rfl, (c7_missing_file_no_call (fun _ => false) (fun _ => "") "missing.pdf" rfl).trans
    (by rfl)⟩

/-- C8: for every existing path whose lower-cased suffix is not ".pdf",
`process_pdf_with_gemini` raises the wrong-extension error, whose message
carries the offending extension; it is a different error kind from the
missing-file error, and the service call count is zero. -/
theorem c8_wrong_extension (fsExists : String → Bool) (service : Unit → String)
    (p : String) (hex : fsExists p = true) (hsuf : lowerString (pathSuffix p) ≠ ".pdf") :
    process_pdf_with_gemini fsExists service p =
      (Except.error (PdfError.valueError
        ("Expected a PDF file, got " ++ lowerString (pathSuffix p))), 0) ∧
    ∀ m, (process_pdf_with_gemini fsExists service p).1 ≠
      Except.error (PdfError.fileNotFound m) := by
  constructor
  · simp [process_pdf_with_gemini, hex, hsuf]
  · intro m
    simp [process_pdf_with_gemini, hex, hsuf]

/-- Witness for C8. -/
theorem c8_witness :
    (fun (_ : String) => true) "notes.txt" = true ∧
    lowerString (pathSuffix "notes.txt") ≠ ".pdf" ∧
    (process_pdf_with_gemini (fun _ => true) (fun _ => "") "notes.txt" =
      (Except.error (PdfError.valueError "Expected a PDF file, got .txt"), 0) ∧
    ∀ m, (process_pdf_with_gemini (fun _ => true) (fun _ => "") "notes.txt").1 ≠
      Except.error (PdfError.fileNotFound m)) :=
  ⟨rfl, by decide, by
    have h := c8_wrong_extension (fun _ => true) (fun _ => "") "notes.txt" rfl (by decide)
    exact ⟨h.1.trans (by rfl), h.2⟩⟩

/-- C9: the extension check is case-insensitive: on every existing path
whose suffix lower-cases to ".pdf", `process_pdf_with_gemini` does not
raise the wrong-extension error. -/
theorem c9_case_insensitive_extension (fsExists : String → Bool) (service : Unit → String)
    (p : String) (hex : fsExists p = true) (hsuf : lowerString (pathSuffix p) = ".pdf") :
    ∀ m, (process_pdf_with_gemini fsExists service p).1 ≠
      Except.error (PdfError.valueError m) := by
  intro m
  simp [process_pdf_with_gemini, hex, hsuf]

/-- Witness for C9 on an upper-case ".PDF" path. -/
theorem c9_witness :
    (fun (_ : String) => true) "DOC.PDF" = true ∧
    lowerString (pathSuffix "DOC.PDF") = ".pdf" ∧
    (process_pdf_with_gemini (fun _ => true) (fun _ => "ok") "DOC.PDF").1 ≠
      Except.error (PdfError.valueError "Expected a PDF file, got .pdf") :=
  ⟨rfl, by decide,
    c9_case_insensitive_extension (fun _ => true) (fun _ => "ok") "DOC.PDF" rfl (by decide)
      "Expected a PDF file, got .pdf"⟩

/-- C10: the existence check strictly precedes the extension check: a
missing path triggers the missing-file error (never the wrong-extension
error) even when its extension is also not ".pdf". -/
theorem c10_existence_before_extension (fsExists : String → Bool) (service : Unit → String)
    (p : String) (h : fsExists p = false) (_hsuf : lowerString (pathSuffix p) ≠ ".pdf") :
    (process_pdf_with_gemini fsExists service p).1 =
      Except.error (PdfError.fileNotFound ("PDF file not found: " ++ p)) ∧
    ∀ m, (process_pdf_with_gemini fsExists service p).1 ≠
      Except.error (PdfError.valueError m) :=
  ⟨by simp [process_pdf_with_gemini, h], fun m => by simp [process_pdf_with_gemini, h]⟩

/-- Witness for C10. -/
theorem c10_witness :
    (fun (_ : String) => false) "gone.txt" = false ∧
    lowerString (pathSuffix "gone.txt") ≠ ".pdf" ∧
    ((process_pdf_with_gemini (fun _ => false) (fun _ => "") "gone.txt").1 =
      Except.error (PdfError.fileNotFound "PDF file not found: gone.txt") ∧
    ∀ m, (process_pdf_with_gemini (fun _ => false) (fun _ => "") "gone.txt").1 ≠
      Except.error (PdfError.valueError m)) :=
  ⟨rfl, by decide, by
    have h := c10_existence_before_extension (fun _ => false) (fun _ => "") "gone.txt" rfl
      (by decide)
    exact ⟨h.1.trans (by rfl), h.2⟩⟩

/-! ## Boundary-marker lemmas -/

theorem beginsFence_iff (l : List Char) : beginsFence l = true ↔ ∃ t, l = fence ++ t := by
  unfold beginsFence
  constructor
  · intro h
    obtain ⟨r, hr⟩ := Option.isSome_iff_exists.mp h
    exact ⟨r, dropExact_sound _ _ _ hr⟩
  · rintro ⟨t, rfl⟩
    rw [dropExact_self]
    rfl

theorem endsFence_iff (l : List Char) : endsFence l = true ↔ ∃ t, l.reverse = fence ++ t := by
  unfold endsFence
  constructor
  · intro h
    obtain ⟨r, hr⟩ := Option.isSome_iff_exists.mp h
    exact ⟨r, dropExact_sound _ _ _ hr⟩
  · rintro ⟨t, ht⟩
    rw [ht, dropExact_self]
    rfl

theorem fence_rev : fence.reverse = fence := by decide

theorem fence_of_append {A B t : List Char} (h : A ++ B = fence ++ t) (h3 : 3 ≤ A.length) :
    ∃ u, A = fence ++ u := by
  have hsplit : A.take 3 ++ (A.drop 3 ++ B) = fence ++ t := by
    rw [← List.append_assoc, List.take_append_drop]
    exact h
  have hlen : (A.take 3).length = fence.length := by
    simp [List.length_take, show fence.length = 3 from by decide]
    omega
  obtain ⟨h1, _⟩ := List.append_inj hsplit hlen
  exact ⟨A.drop 3, by rw [← h1, List.take_append_drop]⟩

theorem endsFence_extend {t r : List Char} (h : endsFence r = true) :
    endsFence (t ++ r) = true := by
  rw [endsFence_iff] at h ⊢
  obtain ⟨u, hu⟩ := h
  exact ⟨u ++ t.reverse, by rw [List.reverse_append, hu, List.append_assoc]⟩

theorem endsFence_append {b X : List Char} (h3 : 3 ≤ X.length)
    (h : endsFence (b ++ X) = true) : endsFence X = true := by
  rw [endsFence_iff] at h ⊢
  obtain ⟨t, ht⟩ := h
  rw [List.reverse_append] at ht
  exact fence_of_append ht (by simpa using h3)

/-! ## Occurrence-count lemmas -/

theorem occ_cons_ge (a : Char) (l : List Char) : occFence l ≤ occFence (a :: l) := by
  cases l with
  | nil => simp [occFence]
  | cons b t =>
    cases t with
    | nil => simp [occFence]
    | cons c r =>
      simp only [occFence]
      omega

theorem occ_append_ge (p l : List Char) : occFence l ≤ occFence (p ++ l) := by
  induction p with
  | nil => simp
  | cons a t ih => exact le_trans ih (occ_cons_ge a (t ++ l))

theorem occ_fence_ge (y : List Char) : 1 + occFence y ≤ occFence (fence ++ y) := by
  rw [fence_eq]
  show 1 + occFence y ≤ occFence (btick :: btick :: btick :: y)
  have h1 := occ_cons_ge btick y
  have h2 := occ_cons_ge btick (btick :: y)
  have hstep : occFence (btick :: btick :: btick :: y) =
      1 + occFence (btick :: btick :: y) := by
    simp only [occFence]
    simp
  omega

theorem occ_two (x w z : List Char) : 2 ≤ occFence (x ++ (fence ++ (w ++ (fence ++ z)))) := by
  have h1 : 1 + occFence (w ++ (fence ++ z)) ≤ occFence (fence ++ (w ++ (fence ++ z))) :=
    occ_fence_ge _
  have h2 : 1 + occFence z ≤ occFence (fence ++ z) := occ_fence_ge z
  have h3 : occFence (fence ++ z) ≤ occFence (w ++ (fence ++ z)) := occ_append_ge w _
  have h4 : occFence (fence ++ (w ++ (fence ++ z))) ≤
      occFence (x ++ (fence ++ (w ++ (fence ++ z)))) := occ_append_ge x _
  omega

theorem sub1_suffix (l : List Char) : ∃ p, l = p ++ sub1 l := by
  unfold sub1
  cases hd : dropExact "```html".data l with
  | none => exact ⟨[], rfl⟩
  | some r =>
    have hl := dropExact_sound _ _ _ hd
    refine ⟨"```html".data ++ r.takeWhile pySpace, ?_⟩
    rw [hl]
    conv_lhs => rw [← List.takeWhile_append_dropWhile pySpace r]
    rw [List.append_assoc]

theorem sub2_suffix (l : List Char) : ∃ p, l = p ++ sub2 l := by
  unfold sub2
  cases hd : dropExact "```".data l with
  | none => exact ⟨[], rfl⟩
  | some r =>
    have hl := dropExact_sound _ _ _ hd
    refine ⟨"```".data ++ r.takeWhile pySpace, ?_⟩
    rw [hl]
    conv_lhs => rw [← List.takeWhile_append_dropWhile pySpace r]
    rw [List.append_assoc]

theorem occ_sub1_le (l : List Char) : occFence (sub1 l) ≤ occFence l := by
  obtain ⟨p, hp⟩ := sub1_suffix l
  have := occ_append_ge p (sub1 l)
  rw [← hp] at this
  exact this

theorem occ_sub2_le (l : List Char) : occFence (sub2 l) ≤ occFence l := by
  obtain ⟨p, hp⟩ := sub2_suffix l
  have := occ_append_ge p (sub2 l)
  rw [← hp] at this
  exact this

/-! ## The first two substitutions leave no fence marker at the start
(on inputs with at most one marker occurrence) -/

theorem sub12_not_begins {l : List Char} (h : occFence l ≤ 1) :
    beginsFence (sub2 (sub1 l)) = false := by
  unfold sub1
  cases hd1 : dropExact "```html".data l with
  | some r =>
    have hl := dropExact_sound _ _ _ hd1
    unfold sub2
    cases hd2 : dropExact "```".data (r.dropWhile pySpace) with
    | some r2 =>
      exfalso
      have h2 := dropExact_sound _ _ _ hd2
      have hform : l = [] ++ (fence ++ (("html".data ++ r.takeWhile pySpace) ++ (fence ++ r2))) := by
        rw [hl, show ("```html".data : List Char) = fence ++ "html".data from by decide]
        conv_lhs => rw [← List.takeWhile_append_dropWhile pySpace r]
        rw [h2, show ("```".data : List Char) = fence from rfl]
        simp [List.append_assoc]
      have htwo := occ_two [] ("html".data ++ r.takeWhile pySpace) r2
      rw [← hform] at htwo
      omega
    | none =>
      cases hb : beginsFence (r.dropWhile pySpace) with
      | false => rfl
      | true =>
        exfalso
        obtain ⟨t, ht⟩ := (beginsFence_iff _).mp hb
        rw [ht, show ("```".data : List Char) = fence from rfl, dropExact_self] at hd2
        exact absurd hd2 (by simp)
  | none =>
    unfold sub2
    cases hd2 : dropExact "```".data l with
    | some r2 =>
      cases hb : beginsFence (r2.dropWhile pySpace) with
      | false => rfl
      | true =>
        exfalso
        have hl := dropExact_sound _ _ _ hd2
        obtain ⟨t, ht⟩ := (beginsFence_iff _).mp hb
        have hform : l = [] ++ (fence ++ (r2.takeWhile pySpace ++ (fence ++ t))) := by
          rw [hl, show ("```".data : List Char) = fence from rfl]
          conv_lhs => rw [← List.takeWhile_append_dropWhile pySpace r2]
          rw [ht]
          simp [List.append_assoc]
        have htwo := occ_two [] (r2.takeWhile pySpace) t
        rw [← hform] at htwo
        omega
    | none =>
      cases hb : beginsFence l with
      | false => rfl
      | true =>
        exfalso
        obtain ⟨t, ht⟩ := (beginsFence_iff _).mp hb
        rw [ht, show ("```".data : List Char) = fence from rfl, dropExact_self] at hd2
        exact absurd hd2 (by simp)

/-! ## The trailing substitution leaves no marker at either boundary -/

theorem sub3_not_begins {l : List Char} (h : beginsFence l = false) :
    beginsFence (sub3 l) = false := by
  unfold sub3
  cases hd : dropExact "```".data l.reverse with
  | some r =>
    cases hb : beginsFence ((r.dropWhile pySpace).reverse) with
    | false => rfl
    | true =>
      exfalso
      obtain ⟨t, ht⟩ := (beginsFence_iff _).mp hb
      have hl := dropExact_sound _ _ _ hd
      have hrev := congrArg List.reverse hl
      rw [List.reverse_reverse, List.reverse_append, rev_fence] at hrev
      have hr : r.takeWhile pySpace ++ r.dropWhile pySpace = r :=
        List.takeWhile_append_dropWhile pySpace r
      have hform : l = fence ++ (t ++ ((r.takeWhile pySpace).reverse ++ fence)) := by
        rw [hrev, ← hr, List.reverse_append, ht]
        simp [List.append_assoc]
      have : beginsFence l = true := (beginsFence_iff l).mpr ⟨_, hform⟩
      rw [this] at h
      exact absurd h (by simp)
  | none =>
    cases hd2 : dropExact "\n```".data l.reverse with
    | some r =>
      cases hb : beginsFence ((r.dropWhile pySpace).reverse ++ ['\n']) with
      | false => rfl
      | true =>
        exfalso
        obtain ⟨t, ht⟩ := (beginsFence_iff _).mp hb
        have hl := dropExact_sound _ _ _ hd2
        have hrev := congrArg List.reverse hl
        rw [List.reverse_reverse, List.reverse_append,
          show (List.reverse "\n```".data : List Char) = fence ++ ['\n'] from by decide] at hrev
        by_cases h3 : 3 ≤ ((r.dropWhile pySpace).reverse).length
        · obtain ⟨u, hu⟩ := fence_of_append ht h3
          have hr : r.takeWhile pySpace ++ r.dropWhile pySpace = r :=
            List.takeWhile_append_dropWhile pySpace r
          have hform : l = fence ++ (u ++ ((r.takeWhile pySpace).reverse ++ (fence ++ ['\n']))) := by
            rw [hrev, ← hr, List.reverse_append, hu]
            simp [List.append_assoc]
          have : beginsFence l = true := (beginsFence_iff l).mpr ⟨_, hform⟩
          rw [this] at h
          exact absurd h (by simp)
        · push_neg at h3
          simp only [List.length_reverse] at h3
          have hlen := congrArg List.length ht
          simp only [List.length_append, List.length_reverse, List.length_cons,
            List.length_nil, show fence.length = 3 from by decide] at hlen
          have ht0 : t = [] := by
            have ht0' : t.length = 0 := by omega
            exact List.eq_nil_of_length_eq_zero ht0'
          rw [ht0, List.append_nil] at ht
          have hrev2 := congrArg List.reverse ht
          rw [List.reverse_append, List.reverse_reverse, fence_rev, fence_eq,
            show (['\n'] : List Char).reverse = ['\n'] from rfl,
            List.singleton_append] at hrev2
          injection hrev2 with hA hB
          exact absurd hA (by decide)
    | none => exact h

theorem sub3_not_ends {l : List Char} (h : occFence l ≤ 1) : endsFence (sub3 l) = false := by
  unfold sub3
  cases hd : dropExact "```".data l.reverse with
  | some r =>
    cases hb : endsFence ((r.dropWhile pySpace).reverse) with
    | false => rfl
    | true =>
      exfalso
      obtain ⟨t, ht⟩ := (endsFence_iff _).mp hb
      rw [List.reverse_reverse] at ht
      have hl := dropExact_sound _ _ _ hd
      have hrev := congrArg List.reverse hl
      rw [List.reverse_reverse, List.reverse_append, rev_fence] at hrev
      have hr : r.takeWhile pySpace ++ r.dropWhile pySpace = r :=
        List.takeWhile_append_dropWhile pySpace r
      have hform : l = t.reverse ++ (fence ++ ((r.takeWhile pySpace).reverse ++ (fence ++ []))) := by
        conv_lhs => rw [hrev, ← hr, ht]
        rw [List.reverse_append, List.reverse_append, fence_rev]
        simp [List.append_assoc]
      have htwo := occ_two t.reverse ((r.takeWhile pySpace).reverse) []
      rw [← hform] at htwo
      omega
  | none =>
    cases hd2 : dropExact "\n```".data l.reverse with
    | some r =>
      cases hb : endsFence ((r.dropWhile pySpace).reverse ++ ['\n']) with
      | false => rfl
      | true =>
        exfalso
        obtain ⟨t, ht⟩ := (endsFence_iff _).mp hb
        rw [List.reverse_append, List.reverse_reverse,
          show (['\n'] : List Char).reverse = ['\n'] from rfl,
          List.singleton_append, fence_eq, List.cons_append] at ht
        injection ht with hA hB
        exact absurd hA (by decide)
    | none =>
      cases hb : endsFence l with
      | false => rfl
      | true =>
        exfalso
        obtain ⟨t, ht⟩ := (endsFence_iff _).mp hb
        rw [ht, show ("```".data : List Char) = fence from rfl, dropExact_self] at hd
        exact absurd hd (by simp)

/-! ## The structural-tag substitutions cannot create a boundary marker -/

theorem dropExact_fence_pos1 (x : List Char) : dropExact fence ('>' :: x) = none := by
  rw [fence_eq]
  simp [dropExact, show ¬ (btick = '>') from by decide]

theorem dropExact_fence_pos2 (a : Char) (x : List Char) :
    dropExact fence (a :: '>' :: x) = none := by
  rw [fence_eq]
  simp [dropExact, show ¬ (btick = '>') from by decide]

theorem dropExact_fence_pos3 (a b : Char) (x : List Char) :
    dropExact fence (b :: a :: '>' :: x) = none := by
  rw [fence_eq]
  simp [dropExact, show ¬ (btick = '>') from by decide]

theorem sub4F_bt : ∀ (fuel : Nat) (pat l : List Char), (∀ x ∈ pat, x = btick) →
    (dropExact pat (sub4F fuel l)).isSome = true → (dropExact pat l).isSome = true := by
  intro fuel
  induction fuel with
  | zero => intro pat l _ h; exact h
  | succ n ih =>
    intro pat l hall h
    cases l with
    | nil => exact h
    | cons c rest =>
      cases pat with
      | nil => rfl
      | cons p ps =>
        have hp : p = btick := hall p (by simp)
        cases hm : matchHtmlOpen (c :: rest) with
        | some r =>
          exfalso
          simp only [sub4F, hm] at h
          rw [List.cons_append] at h
          simp only [dropExact] at h
          rw [if_neg (by rw [hp]; decide)] at h
          simp at h
        | none =>
          simp only [sub4F, hm] at h
          simp only [dropExact] at h ⊢
          split at h
          · rename_i hpc
            rw [if_pos hpc]
            cases ps with
            | nil => rfl
            | cons q qs =>
              exact ih (q :: qs) rest (fun x hx => hall x (List.mem_cons_of_mem p hx)) h
          · simp at h

theorem sub4F_begins (fuel : Nat) (l : List Char)
    (h : beginsFence (sub4F fuel l) = true) : beginsFence l = true := by
  unfold beginsFence at h ⊢
  exact sub4F_bt fuel fence l (by decide) h

theorem sub4F_short : ∀ (fuel : Nat) (l : List Char),
    (sub4F fuel l).length < 6 → sub4F fuel l = l := by
  intro fuel
  induction fuel with
  | zero => intro l _; rfl
  | succ n ih =>
    intro l h
    cases l with
    | nil => rfl
    | cons c rest =>
      cases hm : matchHtmlOpen (c :: rest) with
      | some r =>
        exfalso
        simp only [sub4F, hm] at h
        rw [List.length_append, show ("<html>".data : List Char).length = 6 from by decide] at h
        omega
      | none =>
        simp only [sub4F, hm] at h ⊢
        rw [List.length_cons] at h
        rw [ih rest (by omega)]

theorem matchHtmlOpen_split {l r : List Char} (h : matchHtmlOpen l = some r) :
    ∃ t, l = t ++ r := by
  unfold matchHtmlOpen at h
  cases h1 : dropCI "<html>".data l with
  | none => rw [h1] at h; exact absurd h (by simp)
  | some r1 =>
    rw [h1] at h
    obtain ⟨t1, hl1, _⟩ := dropCI_split _ _ _ h1
    obtain ⟨t2, h2, _⟩ := dropCI_split _ _ _ h
    refine ⟨t1 ++ (r1.takeWhile pySpace ++ t2), ?_⟩
    rw [hl1]
    conv_lhs => rw [← List.takeWhile_append_dropWhile pySpace r1, h2]
    simp [List.append_assoc]

theorem sub4F_ends : ∀ (fuel : Nat) (l : List Char),
    endsFence (sub4F fuel l) = true → endsFence l = true := by
  intro fuel
  induction fuel with
  | zero => intro l h; exact h
  | succ n ih =>
    intro l h
    cases l with
    | nil => exact h
    | cons c rest =>
      cases hm : matchHtmlOpen (c :: rest) with
      | some r =>
        rw [show sub4F (n+1) (c :: rest) = "<html>".data ++ sub4F n r from by
          simp only [sub4F, hm]] at h
        by_cases h3 : 3 ≤ (sub4F n r).length
        · have hX := endsFence_append h3 h
          have hr := ih r hX
          obtain ⟨t, ht⟩ := matchHtmlOpen_split hm
          rw [ht]
          exact endsFence_extend hr
        · exfalso
          push_neg at h3
          have hshort : sub4F n r = r := sub4F_short n r (by omega)
          rw [hshort] at h h3
          cases r with
          | nil => exact absurd h (by decide)
          | cons a r' =>
            cases r' with
            | nil =>
              unfold endsFence at h
              rw [List.reverse_append,
                show (List.reverse "<html>".data : List Char) = '>' :: "lmth<".data from by decide,
                show ([a] : List Char).reverse = [a] from rfl,
                List.singleton_append, dropExact_fence_pos2] at h
              simp at h
            | cons b r'' =>
              cases r'' with
              | nil =>
                unfold endsFence at h
                rw [List.reverse_append,
                  show (List.reverse "<html>".data : List Char) = '>' :: "lmth<".data from by decide,
                  show ([a, b] : List Char).reverse = [b, a] from rfl,
                  show ([b, a] : List Char) ++ '>' :: "lmth<".data =
                    b :: a :: '>' :: "lmth<".data from rfl,
                  dropExact_fence_pos3] at h
                simp at h
              | cons x xs =>
                simp only [List.length_cons] at h3
                omega
      | none =>
        rw [show sub4F (n+1) (c :: rest) = c :: sub4F n rest from by
          simp only [sub4F, hm]] at h
        by_cases h3 : 3 ≤ (sub4F n rest).length
        · have h' : endsFence ([c] ++ sub4F n rest) = true := h
          have hX : endsFence (sub4F n rest) = true := endsFence_append h3 h'
          have hr := ih rest hX
          show endsFence ([c] ++ rest) = true
          exact endsFence_extend hr
        · push_neg at h3
          have hshort : sub4F n rest = rest := sub4F_short n rest (by omega)
          rw [hshort] at h
          exact h

theorem sub5F_bt : ∀ (fuel : Nat) (pat l : List Char), (∀ x ∈ pat, x = btick) →
    (dropExact pat (sub5F fuel l)).isSome = true → (dropExact pat l).isSome = true := by
  intro fuel
  induction fuel with
  | zero => intro pat l _ h; exact h
  | succ n ih =>
    intro pat l hall h
    cases l with
    | nil => exact h
    | cons c rest =>
      cases pat with
      | nil => rfl
      | cons p ps =>
        have hp : p = btick := hall p (by simp)
        cases hm : matchFenceClose (c :: rest) with
        | some r =>
          exfalso
          simp only [sub5F, hm] at h
          rw [List.cons_append] at h
          simp only [dropExact] at h
          rw [if_neg (by rw [hp]; decide)] at h
          simp at h
        | none =>
          simp only [sub5F, hm] at h
          simp only [dropExact] at h ⊢
          split at h
          · rename_i hpc
            rw [if_pos hpc]
            cases ps with
            | nil => rfl
            | cons q qs =>
              exact ih (q :: qs) rest (fun x hx => hall x (List.mem_cons_of_mem p hx)) h
          · simp at h

theorem sub5F_begins (fuel : Nat) (l : List Char)
    (h : beginsFence (sub5F fuel l) = true) : beginsFence l = true := by
  unfold beginsFence at h ⊢
  exact sub5F_bt fuel fence l (by decide) h

theorem sub5F_short : ∀ (fuel : Nat) (l : List Char),
    (sub5F fuel l).length < 7 → sub5F fuel l = l := by
  intro fuel
  induction fuel with
  | zero => intro l _; rfl
  | succ n ih =>
    intro l h
    cases l with
    | nil => rfl
    | cons c rest =>
      cases hm : matchFenceClose (c :: rest) with
      | some r =>
        exfalso
        simp only [sub5F, hm] at h
        rw [List.length_append, show ("</html>".data : List Char).length = 7 from by decide] at h
        omega
      | none =>
        simp only [sub5F, hm] at h ⊢
        rw [List.length_cons] at h
        rw [ih rest (by omega)]

theorem matchFenceClose_split {l r : List Char} (h : matchFenceClose l = some r) :
    ∃ t, l = t ++ r := by
  unfold matchFenceClose at h
  cases h1 : dropCI "```".data l with
  | none => rw [h1] at h; exact absurd h (by simp)
  | some r1 =>
    rw [h1] at h
    obtain ⟨t1, hl1, _⟩ := dropCI_split _ _ _ h1
    obtain ⟨t2, h2, _⟩ := dropCI_split _ _ _ h
    refine ⟨t1 ++ (r1.takeWhile pySpace ++ t2), ?_⟩
    rw [hl1]
    conv_lhs => rw [← List.takeWhile_append_dropWhile pySpace r1, h2]
    simp [List.append_assoc]

theorem sub5F_ends : ∀ (fuel : Nat) (l : List Char),
    endsFence (sub5F fuel l) = true → endsFence l = true := by
  intro fuel
  induction fuel with
  | zero => intro l h; exact h
  | succ n ih =>
    intro l h
    cases l with
    | nil => exact h
    | cons c rest =>
      cases hm : matchFenceClose (c :: rest) with
      | some r =>
        rw [show sub5F (n+1) (c :: rest) = "</html>".data ++ sub5F n r from by
          simp only [sub5F, hm]] at h
        by_cases h3 : 3 ≤ (sub5F n r).length
        · have hX := endsFence_append h3 h
          have hr := ih r hX
          obtain ⟨t, ht⟩ := matchFenceClose_split hm
          rw [ht]
          exact endsFence_extend hr
        · exfalso
          push_neg at h3
          have hshort : sub5F n r = r := sub5F_short n r (by omega)
          rw [hshort] at h h3
          cases r with
          | nil => exact absurd h (by decide)
          | cons a r' =>
            cases r' with
            | nil =>
              unfold endsFence at h
              rw [List.reverse_append,
                show (List.reverse "</html>".data : List Char) = '>' :: "lmth/<".data from by decide,
                show ([a] : List Char).reverse = [a] from rfl,
                List.singleton_append, dropExact_fence_pos2] at h
              simp at h
            | cons b r'' =>
              cases r'' with
              | nil =>
                unfold endsFence at h
                rw [List.reverse_append,
                  show (List.reverse "</html>".data : List Char) = '>' :: "lmth/<".data from by decide,
                  show ([a, b] : List Char).reverse = [b, a] from rfl,
                  show ([b, a] : List Char) ++ '>' :: "lmth/<".data =
                    b :: a :: '>' :: "lmth/<".data from rfl,
                  dropExact_fence_pos3] at h
                simp at h
              | cons x xs =>
                simp only [List.length_cons] at h3
                omega
      | none =>
        rw [show sub5F (n+1) (c :: rest) = c :: sub5F n rest from by
          simp only [sub5F, hm]] at h
        by_cases h3 : 3 ≤ (sub5F n rest).length
        · have h' : endsFence ([c] ++ sub5F n rest) = true := h
          have hX : endsFence (sub5F n rest) = true := endsFence_append h3 h'
          have hr := ih rest hX
          show endsFence ([c] ++ rest) = true
          exact endsFence_extend hr
        · push_neg at h3
          have hshort : sub5F n rest = rest := sub5F_short n rest (by omega)
          rw [hshort] at h
          exact h

/-! ## Claim C1 -/

/-- C1 counterexample: the output CAN end with a fence marker that was
present in the raw input.  On "x``` ```" the trailing substitution strips
the final marker and the space before it, which makes the inner marker
(present mid-string in the raw input) the new end of the output. -/
theorem c1_counterexample :
    clean_html_output "x``` ```" = "x```" ∧
    endsFence (clean_html_output "x``` ```").data = true ∧
    hasFence ("x``` ```" : String).data = true := by
  decide

/-- C1 (amended): the guarantee holds for inputs carrying at most one
fence-marker occurrence: the sanitized output then neither begins nor
ends with a fence marker.  With two or more occurrences a marker from the
input's interior can surface at a boundary of the output. -/
theorem c1_amended_boundary (s : String) (h : occFence s.data ≤ 1) :
    beginsFence (clean_html_output s).data = false ∧
    endsFence (clean_html_output s).data = false := by
  have hb2 : beginsFence (sub2 (sub1 s.data)) = false := sub12_not_begins h
  have hocc : occFence (sub2 (sub1 s.data)) ≤ 1 :=
    le_trans (occ_sub2_le _) (le_trans (occ_sub1_le _) h)
  have hb3 : beginsFence (sub3 (sub2 (sub1 s.data))) = false := sub3_not_begins hb2
  have he3 : endsFence (sub3 (sub2 (sub1 s.data))) = false := sub3_not_ends hocc
  have hdata : (clean_html_output s).data = cleanList s.data := rfl
  rw [hdata]
  unfold cleanList sub4 sub5
  constructor
  · cases hq : beginsFence (sub5F (sub4F (sub3 (sub2 (sub1 s.data))).length
      (sub3 (sub2 (sub1 s.data)))).length (sub4F (sub3 (sub2 (sub1 s.data))).length
      (sub3 (sub2 (sub1 s.data))))) with
    | false => rfl
    | true =>
      exfalso
      have h4 := sub5F_begins _ _ hq
      have h5 := sub4F_begins _ _ h4
      rw [h5] at hb3
      exact absurd hb3 (by simp)
  · cases hq : endsFence (sub5F (sub4F (sub3 (sub2 (sub1 s.data))).length
      (sub3 (sub2 (sub1 s.data)))).length (sub4F (sub3 (sub2 (sub1 s.data))).length
      (sub3 (sub2 (sub1 s.data))))) with
    | false => rfl
    | true =>
      exfalso
      have h4 := sub5F_ends _ _ hq
      have h5 := sub4F_ends _ _ h4
      rw [h5] at he3
      exact absurd he3 (by simp)

/-- Witness for C1 (amended): a single-marker input. -/
theorem c1_witness :
    occFence ("```html\n<b>hi</b>" : String).data ≤ 1 ∧
    (beginsFence (clean_html_output "```html\n<b>hi</b>").data = false ∧
     endsFence (clean_html_output "```html\n<b>hi</b>").data = false) :=
  ⟨by decide, c1_amended_boundary "```html\n<b>hi</b>" (by decide)⟩

/-! ## Case-insensitive containment lemmas -/

theorem dropCI_ext (p : List Char) : ∀ l q r, dropCI p l = some r →
    dropCI p (l ++ q) = some (r ++ q) := by
  induction p with
  | nil =>
    intro l q r h
    simp only [dropCI, Option.some.injEq] at h ⊢
    rw [h]
  | cons a ps ih =>
    intro l q r h
    cases l with
    | nil => simp [dropCI] at h
    | cons c cs =>
      rw [List.cons_append]
      simp only [dropCI] at h ⊢
      split at h
      · rename_i hci
        rw [if_pos hci]
        exact ih cs q r h
      · exact absurd h (by simp)

theorem containsCI_cons (pat : List Char) (c : Char) (l : List Char)
    (h : containsCI pat l = true) : containsCI pat (c :: l) = true := by
  simp [containsCI, h]

theorem containsCI_append_left (pat p l : List Char) (h : containsCI pat l = true) :
    containsCI pat (p ++ l) = true := by
  induction p with
  | nil => simpa
  | cons a t ih => exact containsCI_cons pat a _ ih

theorem containsCI_append_right (pat : List Char) : ∀ l q, containsCI pat l = true →
    containsCI pat (l ++ q) = true := by
  intro l
  induction l with
  | nil =>
    intro q h
    cases pat with
    | nil => cases q <;> simp [containsCI, dropCI]
    | cons p ps => simp [containsCI, dropCI] at h
  | cons c cs ih =>
    intro q h
    simp only [containsCI, Bool.or_eq_true] at h
    rw [List.cons_append]
    simp only [containsCI, Bool.or_eq_true]
    rcases h with h | h
    · left
      obtain ⟨r, hr⟩ := Option.isSome_iff_exists.mp h
      have hext := dropCI_ext pat _ q _ hr
      rw [List.cons_append] at hext
      rw [hext]
      rfl
    · right
      exact ih q h

theorem containsCI_infix (pat p m q : List Char) (h : containsCI pat m = true) :
    containsCI pat (p ++ (m ++ q)) = true :=
  containsCI_append_left _ _ _ (containsCI_append_right _ _ _ h)

theorem dropCI_snoc_none (c : Char) : ∀ (pat : List Char),
    (∀ pc ∈ pat, ciEq pc c = false) →
    ∀ x r, dropCI pat (x ++ [c]) = some r → (dropCI pat x).isSome = true := by
  intro pat
  induction pat with
  | nil => intro _ x r _; rfl
  | cons p ps ih =>
    intro hno x r h
    cases x with
    | nil =>
      exfalso
      rw [List.nil_append] at h
      simp only [dropCI] at h
      rw [if_neg (by simp [hno p (by simp)])] at h
      exact absurd h (by simp)
    | cons a xs =>
      rw [List.cons_append] at h
      simp only [dropCI] at h ⊢
      split at h
      · rename_i hci
        rw [if_pos hci]
        exact ih (fun pc hpc => hno pc (List.mem_cons_of_mem p hpc)) xs r h
      · exact absurd h (by simp)

theorem containsCI_snoc (pat : List Char) (c : Char)
    (hno : ∀ pc ∈ pat, ciEq pc c = false) :
    ∀ m, containsCI pat (m ++ [c]) = true → containsCI pat m = true := by
  intro m
  induction m with
  | nil =>
    intro h
    rw [List.nil_append] at h
    cases pat with
    | nil => simp [containsCI, dropCI]
    | cons p ps =>
      exfalso
      simp only [containsCI, Bool.or_eq_true] at h
      rcases h with h | h
      · obtain ⟨r, hr⟩ := Option.isSome_iff_exists.mp h
        simp only [dropCI] at hr
        split at hr
        · rename_i hci
          rw [hno p (by simp)] at hci
          exact absurd hci (by simp)
        · exact absurd hr (by simp)
      · simp [containsCI, dropCI] at h
  | cons a m' ih =>
    intro h
    rw [List.cons_append] at h
    simp only [containsCI, Bool.or_eq_true] at h ⊢
    rcases h with h | h
    · left
      obtain ⟨r, hr⟩ := Option.isSome_iff_exists.mp h
      exact dropCI_snoc_none c pat hno (a :: m') r hr
    · right
      exact ih h

theorem hasOpen_contains : ∀ l, hasOpen l = true → containsCI "<html>".data l = true := by
  intro l
  induction l with
  | nil => intro h; simp [hasOpen] at h
  | cons c rest ih =>
    intro h
    simp only [hasOpen, Bool.or_eq_true] at h
    rcases h with h | h
    · obtain ⟨r, hr⟩ := Option.isSome_iff_exists.mp h
      unfold matchHtmlOpen at hr
      cases h1 : dropCI "<html>".data (c :: rest) with
      | none => rw [h1] at hr; exact absurd hr (by simp)
      | some r1 =>
        simp only [containsCI, Bool.or_eq_true]
        left
        rw [h1]
        rfl
    · exact containsCI_cons _ c _ (ih h)

theorem hasClose_contains : ∀ l, hasClose l = true → containsCI "</html>".data l = true := by
  intro l
  induction l with
  | nil => intro h; simp [hasClose] at h
  | cons c rest ih =>
    intro h
    simp only [hasClose, Bool.or_eq_true] at h
    rcases h with h | h
    · obtain ⟨r, hr⟩ := Option.isSome_iff_exists.mp h
      unfold matchFenceClose at hr
      cases h1 : dropCI "```".data (c :: rest) with
      | none => rw [h1] at hr; exact absurd hr (by simp)
      | some r1 =>
        rw [h1] at hr
        have hr2 : dropCI "</html>".data (r1.dropWhile pySpace) = some r := hr
        obtain ⟨t1, hl1, _⟩ := dropCI_split _ _ _ h1
        have hdw : containsCI "</html>".data (r1.dropWhile pySpace) = true := by
          cases hdd : r1.dropWhile pySpace with
          | nil => rw [hdd] at hr2; simp [dropCI] at hr2
          | cons d ds =>
            rw [hdd] at hr2
            simp only [containsCI, Bool.or_eq_true]
            left
            rw [hr2]
            rfl
        have hr1 : containsCI "</html>".data r1 = true := by
          have hsp : r1.takeWhile pySpace ++ r1.dropWhile pySpace = r1 :=
            List.takeWhile_append_dropWhile pySpace r1
          rw [← hsp]
          exact containsCI_append_left _ _ _ hdw
        rw [hl1]
        exact containsCI_append_left _ _ _ hr1
    · exact containsCI_cons _ c _ (ih h)

/-! ## Decomposition of the boundary substitutions -/

theorem sub3_decomp (l : List Char) :
    ∃ m q, l = m ++ q ∧ (sub3 l = m ∨ sub3 l = m ++ ['\n']) := by
  unfold sub3
  cases hd : dropExact "```".data l.reverse with
  | some r =>
    have hl := dropExact_sound _ _ _ hd
    have hrev := congrArg List.reverse hl
    rw [List.reverse_reverse, List.reverse_append, rev_fence] at hrev
    refine ⟨(r.dropWhile pySpace).reverse, (r.takeWhile pySpace).reverse ++ fence, ?_,
      Or.inl rfl⟩
    rw [hrev]
    conv_lhs => rw [← List.takeWhile_append_dropWhile pySpace r]
    rw [List.reverse_append]
    simp [List.append_assoc]
  | none =>
    cases hd2 : dropExact "\n```".data l.reverse with
    | some r =>
      have hl := dropExact_sound _ _ _ hd2
      have hrev := congrArg List.reverse hl
      rw [List.reverse_reverse, List.reverse_append,
        show (List.reverse "\n```".data : List Char) = fence ++ ['\n'] from by decide] at hrev
      refine ⟨(r.dropWhile pySpace).reverse,
        (r.takeWhile pySpace).reverse ++ (fence ++ ['\n']), ?_, Or.inr rfl⟩
      rw [hrev]
      conv_lhs => rw [← List.takeWhile_append_dropWhile pySpace r]
      rw [List.reverse_append]
      simp [List.append_assoc]
    | none => exact ⟨l, [], by simp, Or.inl rfl⟩

/-! ## Claim C3 -/

/-- C3 counterexample: the sanitizer is NOT purely boundary-local.  The
structural-tag substitution of line 53 scans the whole document, so a
tagged fence adjacent to an `<html>` tag is removed even mid-document:
here the input neither begins nor ends with a marker, yet its interior
marker disappears. -/
theorem c3_counterexample :
    clean_html_output "a\n<html>```html\nb" = "a\n<html>\nb" ∧
    hasFence ("a\n<html>```html\nb" : String).data = true ∧
    hasFence (clean_html_output "a\n<html>```html\nb").data = false ∧
    beginsFence ("a\n<html>```html\nb" : String).data = false ∧
    endsFence ("a\n<html>```html\nb" : String).data = false := by
  decide

/-- C3 (amended): the three leading/trailing substitutions only strip at
the string boundaries, but the structural-tag substitutions (lines 53-54)
scan the whole document and can remove a fence marker adjacent to an
`<html>`/`</html>` tag anywhere.  For inputs that contain no structural
tag (case-insensitively), the output is the input minus a prefix and a
suffix — except that a terminal newline preserved by the `$`-rule may
follow — so every mid-document fence marker is preserved byte-for-byte
(it lies inside the kept middle `m`). -/
theorem c3_boundary_only_without_structural_tags (s : String)
    (h1 : containsCI "<html>".data s.data = false)
    (h2 : containsCI "</html>".data s.data = false) :
    ∃ p m q, s.data = p ++ (m ++ q) ∧
      ((clean_html_output s).data = m ∨ (clean_html_output s).data = m ++ ['\n']) := by
  obtain ⟨p1, hp1⟩ := sub1_suffix s.data
  obtain ⟨p2, hp2⟩ := sub2_suffix (sub1 s.data)
  obtain ⟨m, q, hmq, hres⟩ := sub3_decomp (sub2 (sub1 s.data))
  have hsdata : s.data = (p1 ++ p2) ++ (m ++ q) := by
    rw [hp1, hp2, hmq]
    simp [List.append_assoc]
  have hm1 : containsCI "<html>".data m = false := by
    cases hc : containsCI "<html>".data m with
    | false => rfl
    | true =>
      exfalso
      have hinf := containsCI_infix "<html>".data (p1 ++ p2) m q hc
      rw [← hsdata] at hinf
      rw [hinf] at h1
      exact absurd h1 (by simp)
  have hm2 : containsCI "</html>".data m = false := by
    cases hc : containsCI "</html>".data m with
    | false => rfl
    | true =>
      exfalso
      have hinf := containsCI_infix "</html>".data (p1 ++ p2) m q hc
      rw [← hsdata] at hinf
      rw [hinf] at h2
      exact absurd h2 (by simp)
  have hmn1 : containsCI "<html>".data (m ++ ['\n']) = false := by
    cases hc : containsCI "<html>".data (m ++ ['\n']) with
    | false => rfl
    | true =>
      exfalso
      have hms := containsCI_snoc "<html>".data '\n' (by decide) m hc
      rw [hms] at hm1
      exact absurd hm1 (by simp)
  have hmn2 : containsCI "</html>".data (m ++ ['\n']) = false := by
    cases hc : containsCI "</html>".data (m ++ ['\n']) with
    | false => rfl
    | true =>
      exfalso
      have hms := containsCI_snoc "</html>".data '\n' (by decide) m hc
      rw [hms] at hm2
      exact absurd hm2 (by simp)
  refine ⟨p1 ++ p2, m, q, hsdata, ?_⟩
  have hdata : (clean_html_output s).data = cleanList s.data := rfl
  rw [hdata]
  unfold cleanList sub4 sub5
  rcases hres with hres | hres
  · left
    have ho : hasOpen m = false := by
      cases hh : hasOpen m with
      | false => rfl
      | true =>
        have hoc := hasOpen_contains m hh
        rw [hoc] at hm1
        exact absurd hm1 (by simp)
    have hcl : hasClose m = false := by
      cases hh : hasClose m with
      | false => rfl
      | true =>
        have hoc := hasClose_contains m hh
        rw [hoc] at hm2
        exact absurd hm2 (by simp)
    rw [hres, sub4F_id _ _ ho, sub5F_id _ _ hcl]
  · right
    have ho : hasOpen (m ++ ['\n']) = false := by
      cases hh : hasOpen (m ++ ['\n']) with
      | false => rfl
      | true =>
        have hoc := hasOpen_contains _ hh
        rw [hoc] at hmn1
        exact absurd hmn1 (by simp)
    have hcl : hasClose (m ++ ['\n']) = false := by
      cases hh : hasClose (m ++ ['\n']) with
      | false => rfl
      | true =>
        have hoc := hasClose_contains _ hh
        rw [hoc] at hmn2
        exact absurd hmn2 (by simp)
    rw [hres, sub4F_id _ _ ho, sub5F_id _ _ hcl]

/-- Witness for C3 (amended): a wrapped body with a mid-document fence
marker, which the sanitizer keeps. -/
theorem c3_witness :
    containsCI "<html>".data ("```html\nA ``` B\n```" : String).data = false ∧
    containsCI "</html>".data ("```html\nA ``` B\n```" : String).data = false ∧
    ∃ p m q, ("```html\nA ``` B\n```" : String).data = p ++ (m ++ q) ∧
      ((clean_html_output "```html\nA ``` B\n```").data = m ∨
       (clean_html_output "```html\nA ``` B\n```").data = m ++ ['\n']) :=
  ⟨by decide, by decide,
    c3_boundary_only_without_structural_tags "```html\nA ``` B\n```" (by decide) (by decide)⟩
